import Mathlib

/-!
Verification of the integrated OS simulator engine
(`integrated_os_simulator.py`): the instruction/address generator,
the memory manager with LRU page replacement, and the round-robin
scheduler that drives them.

Python machine integers here are all non-negative counts and addresses,
so they are embedded as `Nat`.  Python's `random.randint(lo, hi)`
(inclusive on both ends) is embedded as a deterministic function of an
oracle `g : Nat → Nat` supplying one raw value per call, reduced into
the requested interval; every theorem quantifies over the oracle, so
the results hold for every realisable sequence of random draws.
-/

/-- Model of `random.randint(lo, hi)` (both ends inclusive): the raw
oracle draw `r` is reduced into the interval `[lo, hi]`. -/
def randint (lo hi r : Nat) : Nat :=
  lo + r % (hi + 1 - lo)

/-- Steps 5 of the generator loop body
(`generate_process_instructions`, the `m1 + 2 <= max_address` block):
possibly emit a forward jump target `m2`, then continue with the next
loop iteration `rest` (which receives the oracle cursor and the updated
count `i`). -/
def genTail2 (maxA : Nat) (g : Nat → Nat) (rest : Nat → Nat → List Nat)
    (c i m1 : Nat) : List Nat :=
  if m1 + 2 ≤ maxA then
    randint (m1 + 2) maxA (g c) :: rest (c + 1) (i + 1)
  else
    rest c i

/-- Steps 3–4 of the generator loop body, after the backward/local
jump target `m1` has been drawn (`c1` is the oracle cursor after that
draw): emit `m1` and, when in range, its successor `m1 + 1`; each
emission is followed by the source's
`if i >= total_instructions: break` check. -/
def genTailBody (total maxA : Nat) (g : Nat → Nat)
    (rest : Nat → Nat → List Nat) (c1 i m1 : Nat) : List Nat :=
  if total ≤ i + 1 then [m1]
  else if m1 + 1 ≤ maxA then
    if total ≤ i + 2 then [m1, m1 + 1]
    else m1 :: (m1 + 1) :: genTail2 maxA g rest c1 (i + 2) m1
  else
    m1 :: genTail2 maxA g rest c1 (i + 1) m1

/-- Steps 3–5 of the generator loop body: draw `m1` uniformly from
`[base, min (m+1) maxA]` and continue. -/
def genTail (total base maxA : Nat) (g : Nat → Nat)
    (rest : Nat → Nat → List Nat) (c i m : Nat) : List Nat :=
  genTailBody total maxA g rest (c + 1) i
    (randint base (min (m + 1) maxA) (g c))

/-- Steps 1–2 of the generator loop body, after the start address `m`
has been drawn: emit `m` and, when in range, `m + 1`, interleaved with
the source's break checks, then fall through to steps 3–5. -/
def genLoopBody (total base maxA : Nat) (g : Nat → Nat)
    (recur : Nat → Nat → List Nat) (c1 i m : Nat) : List Nat :=
  if total ≤ i + 1 then [m]
  else if m + 1 ≤ maxA then
    if total ≤ i + 2 then [m, m + 1]
    else m :: (m + 1) :: genTail total base maxA g recur c1 (i + 2) m
  else
    m :: genTail total base maxA g recur c1 (i + 1) m

/-- The `while i < total_instructions` loop of
`generate_process_instructions`.  `fuel` bounds the number of
iterations; since every iteration emits at least one address, `total`
iterations always suffice (`genLoop_length`).  `c` is the oracle
cursor (one increment per `random.randint` call) and `i` the count of
addresses emitted so far. -/
def genLoop (total base maxA : Nat) (g : Nat → Nat) :
    Nat → Nat → Nat → List Nat
  | 0, _, _ => []
  | fuel + 1, c, i =>
    if total ≤ i then []
    else
      genLoopBody total base maxA g (genLoop total base maxA g fuel)
        (c + 1) i (randint base maxA (g c))

/-- `InstructionGenerator.generate_process_instructions(process_id,
total_instructions)`: the locality-biased reference string of a
process.  `base_address = process_id * 100`,
`max_address = base_address + total_instructions - 1`, and the result
is truncated to exactly `total_instructions` entries. -/
def InstructionGenerator.generate_process_instructions
    (process_id total_instructions : Nat) (g : Nat → Nat) : List Nat :=
  (genLoop total_instructions (process_id * 100)
      (process_id * 100 + total_instructions - 1) g
      total_instructions 0 0).take total_instructions

/-- `InstructionGenerator.instructions_to_pages`: integer division of
each address by the page size. -/
def InstructionGenerator.instructions_to_pages
    (instructions : List Nat) (page_size : Nat := 10) : List Nat :=
  instructions.map (fun instruction => instruction / page_size)

/-!
## Memory manager

Python dicts are embedded as insertion-ordered association lists
(CPython guarantees dict insertion order) and Python sets of page
numbers as duplicate-free lists kept in insertion order (`add` appends
when absent, `remove` erases); membership and size semantics are
exact.  CPython set *iteration* order, however, is hash-based and
implementation-defined — it is not insertion order — so the executable
model's insertion-ordered lists are only a determinization of it.  The
single order-sensitive computation, victim selection, is therefore
analysed as a function of whatever iteration sequence it is handed
(claim C7), never by appealing to the determinization.
-/

/-- Dict lookup: the value at the first entry with key `k`. -/
def alGet {α : Type} : List (Nat × α) → Nat → Option α
  | [], _ => none
  | e :: rest, k => if e.1 = k then some e.2 else alGet rest k

/-- Dict assignment `d[k] = v`: replace the first entry with key `k`,
or append a new entry. -/
def alSet {α : Type} : List (Nat × α) → Nat → α → List (Nat × α)
  | [], k, v => [(k, v)]
  | e :: rest, k, v => if e.1 = k then (k, v) :: rest else e :: alSet rest k v

/-- `if k not in d: d[k] = default`. -/
def ensureKey {α : Type} (l : List (Nat × α)) (k : Nat) (d : α) :
    List (Nat × α) :=
  if (alGet l k).isSome then l else l ++ [(k, d)]

/-- Python `set.add`: append the element when it is not yet present. -/
def setAdd (l : List Nat) (p : Nat) : List Nat :=
  if p ∈ l then l else l ++ [p]

/-- `MemoryManager.__init__` state: `allocated_pages` maps each pid to
its resident-page set, `access_history` maps each pid to its append-only
`(page, time)` list, `time_counter` is the global logical clock. -/
structure MemoryManager where
  total_memory_pages : Nat
  allocated_pages : List (Nat × List Nat)
  page_replacement_algorithm : String
  access_history : List (Nat × List (Nat × Nat))
  time_counter : Nat
deriving DecidableEq

/-- `MemoryManager(total_memory_pages)`. -/
def MemoryManager.init (total_memory_pages : Nat) : MemoryManager :=
  { total_memory_pages := total_memory_pages
    allocated_pages := []
    page_replacement_algorithm := "LRU"
    access_history := []
    time_counter := 0 }

/-- Set union of all entries of `allocated_pages`, as a duplicate-free
list; its length is the `len(get_all_allocated_pages())` of the source. -/
def allPages (l : List (Nat × List Nat)) : List Nat :=
  l.foldl (fun acc e => e.2.foldl setAdd acc) []

/-- `MemoryManager.get_all_allocated_pages` (only its size is ever
used by the source). -/
def MemoryManager.get_all_allocated_pages (m : MemoryManager) : List Nat :=
  allPages m.allocated_pages

/-- The resident-page set of `pid` (empty when the pid has no entry). -/
def residentOf (m : MemoryManager) (pid : Nat) : List Nat :=
  (alGet m.allocated_pages pid).getD []

/-- The access history of `pid` (empty when the pid has no entry). -/
def histOf (m : MemoryManager) (pid : Nat) : List (Nat × Nat) :=
  (alGet m.access_history pid).getD []

/-- `page_last_access.get(page, 0)`: the time of the last access of
`page` in the history, `0` when the page was never accessed (the dict
built at lines 179–181 keeps the last write for each page). -/
def lastAcc (hist : List (Nat × Nat)) (p : Nat) : Nat :=
  hist.foldl (fun acc e => if e.1 = p then e.2 else acc) 0

/-- The `for page in self.allocated_pages[process_id]` scan of
`_select_victim_page`: keep the running best and replace it only on a
strictly smaller key (`last_access < lru_time`), so the first page
attaining the minimum wins. -/
def scanGo (f : Nat → Nat) (best : Nat) : List Nat → Nat
  | [] => best
  | q :: rest => if f q < f best then scanGo f q rest else scanGo f best rest

/-- `MemoryManager._select_victim_page`, as a function of the order in
which `for page in self.allocated_pages[process_id]` iterates the
resident set (`resident` is that iteration sequence): with empty (or
missing) history return the first iterated page, otherwise the LRU
scan above; `none` only on an empty resident set (where the source
would crash, and which the caller excludes).  CPython iterates sets in
hash-table order, not insertion order; `access_page` below hands this
function the insertion-ordered list to stay executable, and every
order-sensitive theorem about it quantifies over the iteration
sequence instead (claim C7). -/
def MemoryManager.select_victim_page
    (resident : List Nat) (hist : List (Nat × Nat)) : Option Nat :=
  if hist.isEmpty then resident.head?
  else
    match resident with
    | [] => none
    | p :: rest => some (scanGo (lastAcc hist) p rest)

/-- `MemoryManager.access_page(process_id, page, process_memory_limit)`:
returns `(fault?, new state)`. -/
def MemoryManager.access_page (m : MemoryManager)
    (process_id page process_memory_limit : Nat) : Bool × MemoryManager :=
  let tc := m.time_counter + 1
  let ap := ensureKey m.allocated_pages process_id []
  let ah := ensureKey m.access_history process_id []
  let resident := (alGet ap process_id).getD []
  let hist := (alGet ah process_id).getD []
  if page ∈ resident then
    (false,
      { m with time_counter := tc, allocated_pages := ap
               access_history := alSet ah process_id (hist ++ [(page, tc)]) })
  else
    let current_process_pages := resident.length
    let total_system_pages := (allPages ap).length
    let newResident :=
      if current_process_pages < process_memory_limit ∧
          total_system_pages < m.total_memory_pages then
        resident ++ [page]
      else if 0 < current_process_pages then
        match MemoryManager.select_victim_page resident hist with
        | some victim => (resident.erase victim) ++ [page]
        | none => resident ++ [page]
      else
        resident ++ [page]
    (true,
      { m with time_counter := tc
               allocated_pages := alSet ap process_id newResident
               access_history := alSet ah process_id (hist ++ [(page, tc)]) })

/-- `MemoryManager.allocate_initial_pages(process_id, required_pages)`:
pre-seed `required_pages` consecutive pages starting at the current
system-wide allocated count; fail (unchanged state) when that would
exceed `total_memory_pages`. -/
def MemoryManager.allocate_initial_pages (m : MemoryManager)
    (process_id required_pages : Nat) : Bool × MemoryManager :=
  if m.total_memory_pages <
      (allPages m.allocated_pages).length + required_pages then
    (false, m)
  else
    let ap := ensureKey m.allocated_pages process_id []
    let start_page := (allPages ap).length
    let resident := (alGet ap process_id).getD []
    let newResident :=
      (List.range required_pages).foldl
        (fun l i => setAdd l (start_page + i)) resident
    (true, { m with allocated_pages := alSet ap process_id newResident })

/-- `MemoryManager.deallocate_process_pages(process_id)`: drop the
pid's entries from both dicts. -/
def MemoryManager.deallocate_process_pages (m : MemoryManager)
    (process_id : Nat) : MemoryManager :=
  { m with
    allocated_pages := m.allocated_pages.filter (fun e => e.1 ≠ process_id)
    access_history := m.access_history.filter (fun e => e.1 ≠ process_id) }

/-- One engine-level memory operation, for stating reachability of
memory states (initial allocations, page accesses and deallocations are
exactly the calls the scheduler issues). -/
inductive MemOp where
  | alloc (pid required : Nat)
  | access (pid page limit : Nat)
  | dealloc (pid : Nat)
deriving DecidableEq

/-- Apply one memory operation (return values discarded). -/
def applyMemOp (m : MemoryManager) : MemOp → MemoryManager
  | MemOp.alloc pid required => (m.allocate_initial_pages pid required).2
  | MemOp.access pid page limit => (m.access_page pid page limit).2
  | MemOp.dealloc pid => m.deallocate_process_pages pid

/-- The memory state after a sequence of engine operations on a fresh
manager with `n` physical frames. -/
def runMemOps (n : Nat) (ops : List MemOp) : MemoryManager :=
  ops.foldl applyMemOp (MemoryManager.init n)

/-- The sum over all processes of the size of their resident-page sets
(the quantity of the conservation property). -/
def totalResident (m : MemoryManager) : Nat :=
  (m.allocated_pages.map (fun e => e.2.length)).sum

/-!
## Scheduler

`PCB.next_process` of the source builds a circular linked list at
admission time but is never read by the scheduling logic, which works
on the `processes` Python list and the index `current_process_index`;
the ring is therefore embedded as that list plus the index.  The
`execution_log` entries are pure reporting (dicts appended and returned
to the caller) and are not part of the state the claims quantify over,
so the embedding returns the selected index in place of the log dict
(`none` standing for the `{'status': 'no_ready_process'}` dict).
-/

/-- `ProcessState` (the `BLOCKED` member exists in the source enum but
is never assigned). -/
inductive ProcessState where
  | READY
  | RUNNING
  | BLOCKED
  | TERMINATED
deriving DecidableEq

/-- The process control block (dataclass `PCB`), minus the write-only
`next_process` pointer. -/
structure PCB where
  name : String
  pid : Nat
  required_time : Nat
  executed_time : Nat
  state : ProcessState
  instruction_sequence : List Nat
  current_instruction_index : Nat
  total_instructions : Nat
  page_faults : Nat
deriving DecidableEq

/-- `IntegratedScheduler` state. -/
structure IntegratedScheduler where
  processes : List PCB
  current_process_index : Nat
  time_quantum : Nat
  instructions_per_time_unit : Nat
  current_time : Nat
  memory_manager : MemoryManager
deriving DecidableEq

/-- `IntegratedScheduler(memory_manager)`: `time_quantum = 2`,
`instructions_per_time_unit = 5`. -/
def IntegratedScheduler.init (memory_manager : MemoryManager) :
    IntegratedScheduler :=
  { processes := []
    current_process_index := 0
    time_quantum := 2
    instructions_per_time_unit := 5
    current_time := 0
    memory_manager := memory_manager }

/-- `IntegratedScheduler.add_process(name, required_time, memory_limit)`
(default `memory_limit = 8`): build the PCB with
`pid = len(self.processes)`, generate its fixed 320-instruction
sequence, allocate `min(memory_limit, 4)` initial pages (the boolean
result is discarded by the source), and append the PCB.  `g` is the
random oracle for the generated sequence. -/
def IntegratedScheduler.add_process (s : IntegratedScheduler)
    (name : String) (required_time : Nat) (memory_limit : Nat)
    (g : Nat → Nat) : IntegratedScheduler :=
  let pid := s.processes.length
  let process : PCB :=
    { name := name
      pid := pid
      required_time := required_time
      executed_time := 0
      state := ProcessState.READY
      instruction_sequence :=
        InstructionGenerator.generate_process_instructions pid 320 g
      current_instruction_index := 0
      total_instructions := 320
      page_faults := 0 }
  let mm := (s.memory_manager.allocate_initial_pages pid
      (min memory_limit 4)).2
  { s with processes := s.processes ++ [process], memory_manager := mm }

/-- `IntegratedScheduler.execute_instructions(process, count)`: run up
to `count` instructions of the process, stopping at the end of the
instruction sequence; each instruction address is divided by 10 to a
page and accessed with the hard-coded `process_memory_limit=8` of
source line 266. -/
def execute_instructions : PCB → MemoryManager → Nat → PCB × MemoryManager
  | p, m, 0 => (p, m)
  | p, m, n + 1 =>
    if p.instruction_sequence.length ≤ p.current_instruction_index then
      (p, m)
    else
      let instruction_addr :=
        p.instruction_sequence.getD p.current_instruction_index 0
      let page_num := instruction_addr / 10
      let r := m.access_page p.pid page_num 8
      let p1 := { p with
        page_faults := p.page_faults + (if r.1 then 1 else 0)
        current_instruction_index := p.current_instruction_index + 1 }
      execute_instructions p1 r.2 n

/-- The scan of `IntegratedScheduler.schedule_next_process`: at most
`attempts` steps around the ring from `idx`, returning the index of the
first `READY` process.  (The source moves `self.current_process_index`
along the scan; on success the pointer equals the returned index and is
then advanced past it by `run_time_slice`, on failure it has wrapped
back to its starting value, so returning the found index captures the
state change.) -/
def scanReady (ps : List PCB) : Nat → Nat → Option Nat
  | _, 0 => none
  | idx, attempts + 1 =>
    match ps.get? idx with
    | none => none
    | some p =>
      if p.state = ProcessState.READY then some idx
      else scanReady ps ((idx + 1) % ps.length) attempts

/-- `IntegratedScheduler.schedule_next_process`, as the index of the
selected PCB. -/
def IntegratedScheduler.schedule_next_process (s : IntegratedScheduler) :
    Option Nat :=
  scanReady s.processes s.current_process_index s.processes.length

/-- The `for _ in range(self.time_quantum)` loop of `run_time_slice`:
each time unit executes `instructions_per_time_unit` instructions,
increments `executed_time`, and breaks early when the instruction
sequence is exhausted or the required time is reached. -/
def run_quantum_units (ipt : Nat) :
    MemoryManager → PCB → Nat → MemoryManager × PCB
  | m, p, 0 => (m, p)
  | m, p, u + 1 =>
    let r := execute_instructions p m ipt
    let p2 : PCB := { r.1 with executed_time := r.1.executed_time + 1 }
    if p2.instruction_sequence.length ≤ p2.current_instruction_index ∨
        p2.required_time ≤ p2.executed_time then
      (r.2, p2)
    else
      run_quantum_units ipt r.2 p2 u

/-- `IntegratedScheduler.run_time_slice`: select the next READY
process (else report no-ready), run it for up to a quantum, terminate
it (deallocating its memory) or return it to READY, advance the ring
pointer past it, and tick the global clock.  The returned `Option Nat`
is the selected index (`none` = `'no_ready_process'`). -/
def IntegratedScheduler.run_time_slice (s : IntegratedScheduler) :
    Option Nat × IntegratedScheduler :=
  match s.schedule_next_process with
  | none => (none, s)
  | some idx =>
    match s.processes.get? idx with
    | none => (none, s)
    | some p =>
      let p1 := { p with state := ProcessState.RUNNING }
      let r := run_quantum_units s.instructions_per_time_unit
        s.memory_manager p1 s.time_quantum
      let p2 := r.2
      if p2.instruction_sequence.length ≤ p2.current_instruction_index ∨
          p2.required_time ≤ p2.executed_time then
        (some idx,
          { s with
            processes :=
              s.processes.set idx { p2 with state := ProcessState.TERMINATED }
            memory_manager := r.1.deallocate_process_pages p2.pid
            current_process_index := (idx + 1) % s.processes.length
            current_time := s.current_time + 1 })
      else
        (some idx,
          { s with
            processes :=
              s.processes.set idx { p2 with state := ProcessState.READY }
            memory_manager := r.1
            current_process_index := (idx + 1) % s.processes.length
            current_time := s.current_time + 1 })

/-- `IntegratedScheduler.run_simulation`: loop `run_time_slice` while
some process is not terminated, stopping on `no_ready_process`.  The
`fuel` argument bounds the Python `while` loop; by the progress bound
(claim C9) `sum(required_time)` rounds always suffice. -/
def IntegratedScheduler.run_simulation :
    Nat → IntegratedScheduler → IntegratedScheduler
  | 0, s => s
  | fuel + 1, s =>
    if s.processes.all (fun p => p.state = ProcessState.TERMINATED) then s
    else
      match s.run_time_slice with
      | (none, s1) => s1
      | (some _, s1) => IntegratedScheduler.run_simulation fuel s1

/-- The dict returned by `IntegratedScheduler.get_memory_statistics`.
`utilization_rate` is a ratio of machine integers (exact here; the
claims only compare it with 1) and `free_pages` is an `Int` because the
source guards it with `max(0, ...)`. -/
structure MemStats where
  total_capacity : Nat
  total_allocated : Nat
  utilization_rate : ℚ
  allocated_by_process : List (Nat × List Nat)
  free_pages : Int

/-- The raw (unclamped) sum of resident-set sizes over the processes
with a non-empty resident set, as computed at source lines 401–402. -/
def rawAllocated (s : IntegratedScheduler) : Nat :=
  ((s.memory_manager.allocated_pages.filter
      (fun e => ¬ e.2.isEmpty)).map (fun e => e.2.length)).sum

/-- `IntegratedScheduler.get_memory_statistics`: clamp the raw sum to
the capacity, then derive utilization and free pages from the clamped
figure. -/
def IntegratedScheduler.get_memory_statistics
    (s : IntegratedScheduler) : MemStats :=
  let active := s.memory_manager.allocated_pages.filter
    (fun e => ¬ e.2.isEmpty)
  let total_capacity := s.memory_manager.total_memory_pages
  let total_allocated := min (rawAllocated s) total_capacity
  { total_capacity := total_capacity
    total_allocated := total_allocated
    utilization_rate :=
      if 0 < total_capacity then
        (total_allocated : ℚ) / (total_capacity : ℚ)
      else 0
    allocated_by_process := active
    free_pages := max 0 ((total_capacity : Int) - (total_allocated : Int)) }

/-- Iterate `run_time_slice` (the state part) `k` times. -/
def sliceIter : Nat → IntegratedScheduler → IntegratedScheduler
  | 0, s => s
  | k + 1, s => sliceIter k s.run_time_slice.2

/-- The progress measure: remaining required time summed over the
process list. -/
def measureS (s : IntegratedScheduler) : Nat :=
  (s.processes.map (fun p => p.required_time - p.executed_time)).sum

/-- Total required time of the admitted processes. -/
def sumRequired (s : IntegratedScheduler) : Nat :=
  (s.processes.map (fun p => p.required_time)).sum

/-- The between-slices scheduler invariant: every PCB is READY or
TERMINATED, and READY PCBs still have remaining required time.  It
holds after admissions of processes with positive required time and is
preserved by `run_time_slice`. -/
def InvS (s : IntegratedScheduler) : Prop :=
  ∀ p ∈ s.processes,
    (p.state = ProcessState.READY ∨ p.state = ProcessState.TERMINATED) ∧
    (p.state = ProcessState.READY → p.executed_time < p.required_time)

instance (s : IntegratedScheduler) : Decidable (InvS s) := by
  unfold InvS; infer_instance

/-!
## Concrete fixtures

Small concrete engine states used to evaluate the definitions on
explicit inputs.
-/

/-- A scheduler with one admitted process of required time 1 (oracle
constantly 0, so its reference string is 0,1,0,1,2 repeated). -/
def exSched1 : IntegratedScheduler :=
  (IntegratedScheduler.init (MemoryManager.init 32)).add_process
    "A" 1 8 (fun _ => 0)

/-- A scheduler with one process admitted with `required_time = 10` and
admission-time `memory_limit = 2` (oracle constantly 50, so its
reference string is 50,51,50,51,102 repeated, touching pages 5 and 10). -/
def exSched2 : IntegratedScheduler :=
  (IntegratedScheduler.init (MemoryManager.init 32)).add_process
    "A" 10 2 (fun _ => 50)

/-- A memory manager where process 0 has one resident page (page 3). -/
def exMemC6 : MemoryManager :=
  ((MemoryManager.init 4).access_page 0 3 8).2

/-- A full 2-frame memory: process 0 resident on pages 3 and 4, page 3
last accessed at time 1 and page 4 at time 2. -/
def exMemC7 : MemoryManager :=
  { total_memory_pages := 2
    allocated_pages := [(0, [3, 4])]
    page_replacement_algorithm := "LRU"
    access_history := [(0, [(3, 1), (4, 2)])]
    time_counter := 2 }

/-!
# Lemmas about the instruction generator
-/

theorem randint_bounds (lo hi r : Nat) (h : lo ≤ hi) :
    lo ≤ randint lo hi r ∧ randint lo hi r ≤ hi := by
  have hm : r % (hi + 1 - lo) < hi + 1 - lo := Nat.mod_lt _ (by omega)
  unfold randint
  omega

theorem genTail2_length (total maxA fuel : Nat) (g : Nat → Nat)
    (rest : Nat → Nat → List Nat)
    (hrest : ∀ c i, total ≤ i + fuel → total ≤ i + (rest c i).length) :
    ∀ c i m1, total ≤ i + fuel →
      total ≤ i + (genTail2 maxA g rest c i m1).length := by
  intro c i m1 h
  unfold genTail2
  split
  · have h2 := hrest (c + 1) (i + 1) (by omega)
    simp only [List.length_cons]
    omega
  · exact hrest c i h

theorem genTailBody_length (total maxA fuel : Nat) (g : Nat → Nat)
    (rest : Nat → Nat → List Nat)
    (hrest : ∀ c i, total ≤ i + fuel → total ≤ i + (rest c i).length) :
    ∀ c1 i m1, total ≤ i + 1 + fuel →
      total ≤ i + (genTailBody total maxA g rest c1 i m1).length := by
  intro c1 i m1 h
  unfold genTailBody
  split
  · simp only [List.length_singleton]
    omega
  · split
    · split
      · simp only [List.length_cons, List.length_singleton]
        omega
      · have h2 := genTail2_length total maxA fuel g rest hrest
          c1 (i + 2) m1 (by omega)
        simp only [List.length_cons]
        omega
    · have h2 := genTail2_length total maxA fuel g rest hrest
        c1 (i + 1) m1 (by omega)
      simp only [List.length_cons]
      omega

theorem genLoopBody_length (total base maxA fuel : Nat) (g : Nat → Nat)
    (recur : Nat → Nat → List Nat)
    (hrec : ∀ c i, total ≤ i + fuel → total ≤ i + (recur c i).length) :
    ∀ c1 i m, total ≤ i + 1 + fuel →
      total ≤ i + (genLoopBody total base maxA g recur c1 i m).length := by
  intro c1 i m h
  unfold genLoopBody
  split
  · simp only [List.length_singleton]
    omega
  · split
    · split
      · simp only [List.length_cons, List.length_singleton]
        omega
      · have h2 := genTailBody_length total maxA fuel g recur hrec
          (c1 + 1) (i + 2) (randint base (min (m + 1) maxA) (g c1))
          (by omega)
        unfold genTail
        simp only [List.length_cons]
        omega
    · have h2 := genTailBody_length total maxA fuel g recur hrec
        (c1 + 1) (i + 1) (randint base (min (m + 1) maxA) (g c1))
        (by omega)
      unfold genTail
      simp only [List.length_cons]
      omega

theorem genLoop_length (total base maxA : Nat) (g : Nat → Nat) :
    ∀ fuel c i, total ≤ i + fuel →
      total ≤ i + (genLoop total base maxA g fuel c i).length := by
  intro fuel
  induction fuel with
  | zero =>
    intro c i h
    simpa [genLoop] using h
  | succ fuel ih =>
    intro c i h
    unfold genLoop
    split
    · simpa
    · exact genLoopBody_length total base maxA fuel g _ ih (c + 1) i _
        (by omega)

theorem genTail2_mem (base maxA : Nat) (g : Nat → Nat)
    (rest : Nat → Nat → List Nat)
    (hrest : ∀ c i a, a ∈ rest c i → base ≤ a ∧ a ≤ maxA) :
    ∀ c i m1, base ≤ m1 →
      ∀ a ∈ genTail2 maxA g rest c i m1, base ≤ a ∧ a ≤ maxA := by
  intro c i m1 hm1 a ha
  unfold genTail2 at ha
  split at ha
  · rcases List.mem_cons.1 ha with h | h
    · subst h
      have hb := randint_bounds (m1 + 2) maxA (g c) (by assumption)
      omega
    · exact hrest _ _ _ h
  · exact hrest _ _ _ ha

theorem genTailBody_mem (total base maxA : Nat) (g : Nat → Nat)
    (rest : Nat → Nat → List Nat)
    (hrest : ∀ c i a, a ∈ rest c i → base ≤ a ∧ a ≤ maxA) :
    ∀ c1 i m1, base ≤ m1 → m1 ≤ maxA →
      ∀ a ∈ genTailBody total maxA g rest c1 i m1,
        base ≤ a ∧ a ≤ maxA := by
  intro c1 i m1 hlo hhi a ha
  unfold genTailBody at ha
  split at ha
  · simp only [List.mem_singleton] at ha
    omega
  · split at ha
    · split at ha
      · simp only [List.mem_cons, List.mem_singleton] at ha
        rcases ha with h | h | h
        · omega
        · omega
        · exact absurd h (List.not_mem_nil a)
      · rcases List.mem_cons.1 ha with h | h
        · omega
        · rcases List.mem_cons.1 h with h2 | h2
          · omega
          · exact genTail2_mem base maxA g rest hrest _ _ _ hlo a h2
    · rcases List.mem_cons.1 ha with h | h
      · omega
      · exact genTail2_mem base maxA g rest hrest _ _ _ hlo a h

theorem genTail_mem (total base maxA : Nat) (g : Nat → Nat)
    (rest : Nat → Nat → List Nat)
    (hrest : ∀ c i a, a ∈ rest c i → base ≤ a ∧ a ≤ maxA)
    (hba : base ≤ maxA) :
    ∀ c i m, base ≤ m →
      ∀ a ∈ genTail total base maxA g rest c i m,
        base ≤ a ∧ a ≤ maxA := by
  intro c i m hm a ha
  unfold genTail at ha
  have hb := randint_bounds base (min (m + 1) maxA) (g c)
    (le_min (by omega) hba)
  exact genTailBody_mem total base maxA g rest hrest _ _ _
    (by omega) (by omega) a ha

theorem genLoopBody_mem (total base maxA : Nat) (g : Nat → Nat)
    (recur : Nat → Nat → List Nat)
    (hrec : ∀ c i a, a ∈ recur c i → base ≤ a ∧ a ≤ maxA)
    (hba : base ≤ maxA) :
    ∀ c1 i m, base ≤ m → m ≤ maxA →
      ∀ a ∈ genLoopBody total base maxA g recur c1 i m,
        base ≤ a ∧ a ≤ maxA := by
  intro c1 i m hlo hhi a ha
  unfold genLoopBody at ha
  split at ha
  · simp only [List.mem_singleton] at ha
    omega
  · split at ha
    · split at ha
      · simp only [List.mem_cons, List.mem_singleton] at ha
        rcases ha with h | h | h
        · omega
        · omega
        · exact absurd h (List.not_mem_nil a)
      · rcases List.mem_cons.1 ha with h | h
        · omega
        · rcases List.mem_cons.1 h with h2 | h2
          · omega
          · exact genTail_mem total base maxA g recur hrec hba _ _ _ hlo a h2
    · rcases List.mem_cons.1 ha with h | h
      · omega
      · exact genTail_mem total base maxA g recur hrec hba _ _ _ hlo a h

theorem genLoop_mem (total base maxA : Nat) (g : Nat → Nat)
    (hba : base ≤ maxA) :
    ∀ fuel c i a, a ∈ genLoop total base maxA g fuel c i →
      base ≤ a ∧ a ≤ maxA := by
  intro fuel
  induction fuel with
  | zero =>
    intro c i a ha
    simp [genLoop] at ha
  | succ fuel ih =>
    intro c i a ha
    unfold genLoop at ha
    split at ha
    · exact absurd ha (List.not_mem_nil a)
    · have hb := randint_bounds base maxA (g c) hba
      exact genLoopBody_mem total base maxA g _ (fun c i a h => ih c i a h)
        hba _ _ _ (by omega) (by omega) a ha

/-- Claim C2 (amended): the generated sequence has exactly
`total_instructions` entries, each within the process's window
`[base, base + total_instructions - 1]` — but with
`base = process_id * 100` (the source's fixed stride), not
`process_id * total_instructions`. -/
theorem c2_generator_window (pid total : Nat) (g : Nat → Nat)
    (h : 1 ≤ total) :
    (InstructionGenerator.generate_process_instructions pid total g).length
        = total ∧
    ∀ a ∈ InstructionGenerator.generate_process_instructions pid total g,
      pid * 100 ≤ a ∧ a ≤ pid * 100 + total - 1 := by
  have hba : pid * 100 ≤ pid * 100 + total - 1 := by omega
  constructor
  · have hlen := genLoop_length total (pid * 100)
      (pid * 100 + total - 1) g total 0 0 (by omega)
    unfold InstructionGenerator.generate_process_instructions
    simp only [List.length_take]
    omega
  · intro a ha
    unfold InstructionGenerator.generate_process_instructions at ha
    exact genLoop_mem total (pid * 100) (pid * 100 + total - 1) g hba
      total 0 0 a (List.take_subset total _ ha)

/-- Witness for C2 at `pid = 1`, `total = 5`, oracle constantly 0. -/
theorem c2_generator_window_witness :
    (InstructionGenerator.generate_process_instructions 1 5
        (fun _ => 0)).length = 5 ∧
    ∀ a ∈ InstructionGenerator.generate_process_instructions 1 5
        (fun _ => 0),
      1 * 100 ≤ a ∧ a ≤ 1 * 100 + 5 - 1 :=
  c2_generator_window 1 5 (fun _ => 0) (by decide)

/-- Counterexample to claim C2 as stated: for `pid = 1`,
`total = 320`, the first generated address is 100, which is below the
claimed window base `pid * total_instructions = 320` (the source uses
`pid * 100`). -/
theorem c2_counterexample :
    (InstructionGenerator.generate_process_instructions 1 320
        (fun _ => 0)).head? = some 100 ∧ 100 < 1 * 320 := by
  constructor
  · rfl
  · decide

/-!
# Lemmas about the dict and set embeddings
-/

theorem alGet_alSet_self {α : Type} (l : List (Nat × α)) (k : Nat) (v : α) :
    alGet (alSet l k v) k = some v := by
  induction l with
  | nil => simp [alSet, alGet]
  | cons e rest ih =>
    by_cases h : e.1 = k
    · simp [alSet, h, alGet]
    · simp [alSet, h, alGet, ih]

theorem alGet_alSet_ne {α : Type} (l : List (Nat × α)) (k : Nat) (v : α)
    (q : Nat) (h : q ≠ k) : alGet (alSet l k v) q = alGet l q := by
  induction l with
  | nil => simp [alSet, alGet, Ne.symm h]
  | cons e rest ih =>
    by_cases he : e.1 = k
    · simp only [alSet, he, if_true, alGet]
      rw [if_neg (Ne.symm h), if_neg (Ne.symm h)]
    · simp only [alSet, he, if_false, alGet, ih]

theorem alGet_append_of_some {α : Type} (l1 l2 : List (Nat × α))
    (q : Nat) (v : α) (h : alGet l1 q = some v) :
    alGet (l1 ++ l2) q = some v := by
  induction l1 with
  | nil => simp [alGet] at h
  | cons e rest ih =>
    by_cases he : e.1 = q
    · simp only [alGet, he, if_true] at h
      simp [alGet, he, h]
    · simp only [alGet, he, if_false] at h
      simp [alGet, he, ih h]

theorem alGet_append_of_none {α : Type} (l1 l2 : List (Nat × α))
    (q : Nat) (h : alGet l1 q = none) :
    alGet (l1 ++ l2) q = alGet l2 q := by
  induction l1 with
  | nil => simp [alGet]
  | cons e rest ih =>
    by_cases he : e.1 = q
    · simp [alGet, he] at h
    · simp only [alGet, he, if_false] at h
      simp [alGet, he, ih h]

theorem alGet_ensureKey_ne {α : Type} (l : List (Nat × α)) (k : Nat)
    (d : α) (q : Nat) (h : q ≠ k) :
    alGet (ensureKey l k d) q = alGet l q := by
  unfold ensureKey
  split
  · rfl
  · cases hq : alGet l q with
    | some v => exact alGet_append_of_some l [(k, d)] q v hq
    | none =>
      rw [alGet_append_of_none l [(k, d)] q hq]
      simp [alGet, Ne.symm h]

theorem alGet_ensureKey_self {α : Type} (l : List (Nat × α)) (k : Nat)
    (d : α) : alGet (ensureKey l k d) k = some ((alGet l k).getD d) := by
  unfold ensureKey
  cases hq : alGet l k with
  | some v => simp [Option.isSome, hq, alGet_append_of_some l [(k, d)] k v hq]
  | none =>
    simp only [hq, Option.isSome_none, Bool.false_eq_true, if_false,
      Option.getD_none]
    rw [alGet_append_of_none l [(k, d)] k hq]
    simp [alGet]

theorem alGet_mem {α : Type} (l : List (Nat × α)) (k : Nat) (v : α)
    (h : alGet l k = some v) : (k, v) ∈ l := by
  induction l with
  | nil => simp [alGet] at h
  | cons e rest ih =>
    by_cases he : e.1 = k
    · simp only [alGet, he, if_true, Option.some_inj] at h
      have : e = (k, v) := by
        cases e
        simp_all
      simp [this]
    · simp only [alGet, he, if_false] at h
      exact List.mem_cons_of_mem e (ih h)

theorem mem_setAdd (l : List Nat) (p a : Nat) :
    a ∈ setAdd l p ↔ a ∈ l ∨ a = p := by
  unfold setAdd
  split
  · constructor
    · exact fun h => Or.inl h
    · rintro (h | rfl)
      · exact h
      · assumption
  · simp

theorem setAdd_nodup (l : List Nat) (p : Nat) (h : l.Nodup) :
    (setAdd l p).Nodup := by
  unfold setAdd
  split
  · exact h
  · simp [List.nodup_append, h]
    intro hp
    simp_all

theorem setAdd_length (l : List Nat) (p : Nat) :
    (setAdd l p).length ≤ l.length + 1 := by
  unfold setAdd
  split
  · omega
  · simp

theorem subset_setAdd (l : List Nat) (p : Nat) : l ⊆ setAdd l p := by
  intro a ha
  exact (mem_setAdd l p a).2 (Or.inl ha)

theorem foldl_setAdd_nodup (xs : List Nat) :
    ∀ acc : List Nat, acc.Nodup → (xs.foldl setAdd acc).Nodup := by
  induction xs with
  | nil => intro acc h; exact h
  | cons x rest ih =>
    intro acc h
    exact ih (setAdd acc x) (setAdd_nodup acc x h)

theorem foldl_setAdd_length (xs : List Nat) :
    ∀ acc : List Nat, (xs.foldl setAdd acc).length ≤ acc.length + xs.length := by
  induction xs with
  | nil => intro acc; simp
  | cons x rest ih =>
    intro acc
    have h1 := ih (setAdd acc x)
    have h2 := setAdd_length acc x
    simp only [List.foldl_cons, List.length_cons]
    omega

theorem subset_foldl_setAdd (xs : List Nat) :
    ∀ acc : List Nat, acc ⊆ xs.foldl setAdd acc := by
  induction xs with
  | nil => intro acc; exact fun a h => h
  | cons x rest ih =>
    intro acc
    exact fun a ha => ih (setAdd acc x) (subset_setAdd acc x ha)

theorem mem_foldl_setAdd (xs : List Nat) :
    ∀ acc a, a ∈ xs → a ∈ xs.foldl setAdd acc := by
  induction xs with
  | nil => intro acc a h; simp at h
  | cons x rest ih =>
    intro acc a ha
    rcases List.mem_cons.1 ha with rfl | h
    · exact subset_foldl_setAdd rest (setAdd acc a)
        ((mem_setAdd acc a a).2 (Or.inr rfl))
    · exact ih (setAdd acc x) a h

theorem foldl_allPages_nodup (l : List (Nat × List Nat)) :
    ∀ acc : List Nat, acc.Nodup →
      (l.foldl (fun acc e => e.2.foldl setAdd acc) acc).Nodup := by
  induction l with
  | nil => intro acc h; exact h
  | cons e rest ih =>
    intro acc h
    exact ih (e.2.foldl setAdd acc) (foldl_setAdd_nodup e.2 acc h)

theorem allPages_nodup (l : List (Nat × List Nat)) : (allPages l).Nodup :=
  foldl_allPages_nodup l [] List.nodup_nil

theorem subset_foldl_allPages (l : List (Nat × List Nat)) :
    ∀ acc : List Nat, acc ⊆ l.foldl (fun acc e => e.2.foldl setAdd acc) acc := by
  induction l with
  | nil => intro acc; exact fun a h => h
  | cons e rest ih =>
    intro acc a ha
    exact ih (e.2.foldl setAdd acc) (subset_foldl_setAdd e.2 acc ha)

theorem entry_subset_allPages (l : List (Nat × List Nat)) (k : Nat)
    (xs : List Nat) (h : (k, xs) ∈ l) : xs ⊆ allPages l := by
  unfold allPages
  suffices hs : ∀ acc : List Nat,
      xs ⊆ l.foldl (fun acc e => e.2.foldl setAdd acc) acc by
    exact hs []
  induction l with
  | nil => simp at h
  | cons e rest ih =>
    intro acc
    rcases List.mem_cons.1 h with rfl | hmem
    · intro a ha
      exact subset_foldl_allPages rest _ (mem_foldl_setAdd xs acc a ha)
    · exact ih hmem (e.2.foldl setAdd acc)

theorem residentOf_subset_allPages (m : MemoryManager) (pid : Nat) :
    residentOf m pid ⊆ allPages m.allocated_pages := by
  unfold residentOf
  cases h : alGet m.allocated_pages pid with
  | none => simp
  | some v =>
    simp only [Option.getD_some]
    exact entry_subset_allPages m.allocated_pages pid v (alGet_mem _ _ _ h)

theorem nodup_subset_length (l1 l2 : List Nat) (h1 : l1.Nodup)
    (h2 : l1 ⊆ l2) : l1.length ≤ l2.length := by
  calc l1.length = l1.toFinset.card := (List.toFinset_card_of_nodup h1).symm
    _ ≤ l2.toFinset.card := Finset.card_le_card
        (fun a ha => List.mem_toFinset.2 (h2 (List.mem_toFinset.1 ha)))
    _ ≤ l2.length := l2.toFinset_card_le

theorem nodup_append_single (l : List Nat) (p : Nat) (h1 : l.Nodup)
    (h2 : p ∉ l) : (l ++ [p]).Nodup := by
  simp [List.nodup_append, h1]
  intro hp
  exact h2 hp

theorem allPages_ensureKey_empty (l : List (Nat × List Nat)) (k : Nat) :
    allPages (ensureKey l k []) = allPages l := by
  unfold ensureKey
  split
  · rfl
  · unfold allPages
    rw [List.foldl_append]
    rfl

/-!
# Lemmas about LRU victim selection
-/

theorem scanGo_mem (f : Nat → Nat) :
    ∀ (l : List Nat) (best : Nat), scanGo f best l ∈ best :: l := by
  intro l
  induction l with
  | nil => intro best; simp [scanGo]
  | cons q rest ih =>
    intro best
    simp only [scanGo]
    split
    · have h := ih q
      rcases List.mem_cons.1 h with h1 | h1
      · rw [h1]; simp
      · simp [h1]
    · have h := ih best
      rcases List.mem_cons.1 h with h1 | h1
      · rw [h1]; simp
      · simp [h1]

theorem scanGo_spec (f : Nat → Nat) :
    ∀ (l : List Nat) (best : Nat),
      ∃ l1 l2, best :: l = l1 ++ scanGo f best l :: l2 ∧
        (∀ q ∈ l1, f (scanGo f best l) < f q) ∧
        (∀ q ∈ best :: l, f (scanGo f best l) ≤ f q) := by
  intro l
  induction l with
  | nil =>
    intro best
    refine ⟨[], [], rfl, ?_, ?_⟩
    · intro q hq; simp at hq
    · intro q hq
      simp only [scanGo]
      simp at hq
      simp [hq]
  | cons q rest ih =>
    intro best
    simp only [scanGo]
    split
    · rename_i hlt
      obtain ⟨l1, l2, hdec, hstrict, hmin⟩ := ih q
      refine ⟨best :: l1, l2, ?_, ?_, ?_⟩
      · simp [hdec]
      · intro y hy
        rcases List.mem_cons.1 hy with rfl | hy2
        · have h1 := hmin q (List.mem_cons_self q rest)
          omega
        · exact hstrict y hy2
      · intro y hy
        rcases List.mem_cons.1 hy with rfl | hy2
        · have h1 := hmin q (List.mem_cons_self q rest)
          omega
        · exact hmin y hy2
    · rename_i hnlt
      have hle : f best ≤ f q := Nat.le_of_not_lt hnlt
      obtain ⟨l1, l2, hdec, hstrict, hmin⟩ := ih best
      cases l1 with
      | nil =>
        simp only [List.nil_append, List.cons.injEq] at hdec
        obtain ⟨hbest, hl2⟩ := hdec
        refine ⟨[], q :: rest, by rw [List.nil_append, ← hbest], ?_, ?_⟩
        · intro y hy; simp at hy
        · intro y hy
          rw [← hbest]
          rcases List.mem_cons.1 hy with rfl | hy2
          · exact Nat.le_refl _
          · rcases List.mem_cons.1 hy2 with rfl | hy3
            · exact hle
            · have h2 := hmin y (List.mem_cons_of_mem best hy3)
              rw [← hbest] at h2
              exact h2
      | cons b l1t =>
        simp only [List.cons_append, List.cons.injEq] at hdec
        obtain ⟨hb, hrest⟩ := hdec
        subst hb
        have hshape : (best :: q :: l1t) ++ scanGo f best rest :: l2 =
            best :: q :: (l1t ++ scanGo f best rest :: l2) := by simp
        refine ⟨best :: q :: l1t, l2, by rw [hshape, ← hrest], ?_, ?_⟩
        · intro y hy
          rcases List.mem_cons.1 hy with rfl | hy2
          · exact hstrict _ (List.mem_cons_self _ _)
          · rcases List.mem_cons.1 hy2 with rfl | hy3
            · have h1 := hstrict best (List.mem_cons_self _ _)
              omega
            · exact hstrict y (List.mem_cons_of_mem best hy3)
        · intro y hy
          rcases List.mem_cons.1 hy with rfl | hy2
          · exact hmin _ (List.mem_cons_self _ _)
          · rcases List.mem_cons.1 hy2 with rfl | hy3
            · have h1 := hstrict best (List.mem_cons_self _ _)
              omega
            · exact hmin y (List.mem_cons_of_mem best hy3)

theorem lastAcc_nil (p : Nat) : lastAcc [] p = 0 := rfl

theorem select_victim_mem (resident : List Nat) (hist : List (Nat × Nat))
    (v : Nat) (h : MemoryManager.select_victim_page resident hist = some v) :
    v ∈ resident := by
  unfold MemoryManager.select_victim_page at h
  split at h
  · cases resident with
    | nil => simp at h
    | cons p rest =>
      simp only [List.head?_cons, Option.some_inj] at h
      simp [← h]
  · cases resident with
    | nil => simp at h
    | cons p rest =>
      simp only [Option.some_inj] at h
      rw [← h]
      exact scanGo_mem (lastAcc hist) rest p

theorem select_victim_spec (resident : List Nat)
    (hist : List (Nat × Nat)) (h : resident ≠ []) :
    ∃ v l1 l2, MemoryManager.select_victim_page resident hist = some v ∧
      resident = l1 ++ v :: l2 ∧
      (∀ q ∈ l1, lastAcc hist v < lastAcc hist q) ∧
      (∀ q ∈ resident, lastAcc hist v ≤ lastAcc hist q) := by
  cases resident with
  | nil => exact absurd rfl h
  | cons p rest =>
    unfold MemoryManager.select_victim_page
    split
    · rename_i hempty
      have hh : hist = [] := List.isEmpty_iff.1 hempty
      subst hh
      refine ⟨p, [], rest, rfl, rfl, ?_, ?_⟩
      · intro q hq; simp at hq
      · intro q hq
        simp [lastAcc_nil]
    · obtain ⟨l1, l2, hdec, hstrict, hmin⟩ := scanGo_spec (lastAcc hist) rest p
      exact ⟨scanGo (lastAcc hist) p rest, l1, l2, rfl, hdec, hstrict, hmin⟩

theorem alGet_ensureKey_getD {α : Type} (l : List (Nat × α)) (k : Nat)
    (d : α) : (alGet (ensureKey l k d) k).getD d = (alGet l k).getD d := by
  rw [alGet_ensureKey_self]
  rfl

theorem select_victim_singleton (x : Nat) (hist : List (Nat × Nat)) :
    MemoryManager.select_victim_page [x] hist = some x := by
  unfold MemoryManager.select_victim_page
  split
  · rfl
  · rfl

/-- Claim C6 (confirmed): `access_page` never touches the resident set
of any other process, and a hit leaves the accessing process's own
resident set unchanged and reports no fault. -/
theorem c6_access_frame (m : MemoryManager) (pid page limit : Nat) :
    (∀ q, q ≠ pid →
      residentOf (m.access_page pid page limit).2 q = residentOf m q) ∧
    (page ∈ residentOf m pid →
      (m.access_page pid page limit).1 = false ∧
      residentOf (m.access_page pid page limit).2 pid = residentOf m pid) := by
  constructor
  · intro q hq
    simp only [MemoryManager.access_page, residentOf]
    split
    · simp only
      rw [alGet_ensureKey_ne _ _ _ _ hq]
    · simp only
      rw [alGet_alSet_ne _ _ _ _ hq, alGet_ensureKey_ne _ _ _ _ hq]
  · intro hmem
    have hcond : page ∈ (alGet (ensureKey m.allocated_pages pid []) pid).getD
        ([] : List Nat) := by
      rw [alGet_ensureKey_getD]
      exact hmem
    simp only [MemoryManager.access_page, residentOf]
    rw [if_pos hcond]
    refine ⟨rfl, ?_⟩
    simp only
    rw [alGet_ensureKey_getD]

/-- Witness for C6: on `exMemC6` (process 0 resident on page 3), an
access by process 0 to page 3 leaves process 1 untouched, is a hit,
and leaves process 0's resident set unchanged. -/
theorem c6_access_frame_witness :
    residentOf ((exMemC6.access_page 0 3 8).2) 1 = residentOf exMemC6 1 ∧
    ((exMemC6.access_page 0 3 8).1 = false ∧
      residentOf ((exMemC6.access_page 0 3 8).2) 0 = residentOf exMemC6 0) :=
  ⟨(c6_access_frame exMemC6 0 3 8).1 1 (by decide),
   (c6_access_frame exMemC6 0 3 8).2 (by decide)⟩

/-- Counterexample to claim C4 as stated: with
`process_memory_limit = 0`, the very first access installs the missing
page (after the defensive no-victim eviction), so the resident set is
`[5]` — not empty — when the call returns, and a repeated access to
that page is then a hit (returns no fault), contradicting
"every access is a fault" as well. -/
theorem c4_counterexample :
    ((MemoryManager.init 4).access_page 0 5 0).1 = true ∧
    residentOf ((MemoryManager.init 4).access_page 0 5 0).2 0 = [5] ∧
    (((MemoryManager.init 4).access_page 0 5 0).2.access_page 0 5 0).1
      = false := by
  refine ⟨rfl, by decide, rfl⟩

/-- Claim C4 (amended): with `process_memory_limit = 0` (and at most
one currently resident page, which every `limit = 0` run maintains),
each access leaves exactly the accessed page resident, and the access
faults iff the page was not the sole resident page. -/
theorem c4_zero_limit (m : MemoryManager) (pid page : Nat)
    (h : (residentOf m pid).length ≤ 1) :
    residentOf (m.access_page pid page 0).2 pid = [page] ∧
    ((m.access_page pid page 0).1 = true ↔ residentOf m pid ≠ [page]) := by
  have hcondeq : (alGet (ensureKey m.allocated_pages pid []) pid).getD
      ([] : List Nat) = residentOf m pid := by
    rw [alGet_ensureKey_getD]; rfl
  by_cases hmem : page ∈ residentOf m pid
  · -- hit: the resident set must already be exactly [page]
    have hr : residentOf m pid = [page] := by
      cases hr : residentOf m pid with
      | nil => rw [hr] at hmem; simp at hmem
      | cons x t =>
        cases t with
        | nil =>
          rw [hr] at hmem
          simp at hmem
          rw [hmem]
        | cons y t2 => rw [hr] at h; simp at h
    simp only [MemoryManager.access_page]
    rw [if_pos (hcondeq ▸ hmem)]
    constructor
    · simp only [residentOf]
      rw [alGet_ensureKey_getD]
      exact hr
    · simp [hr]
  · -- miss
    simp only [MemoryManager.access_page]
    rw [if_neg (hcondeq ▸ hmem)]
    constructor
    · simp only [residentOf]
      rw [alGet_alSet_self]
      simp only [Option.getD_some]
      rw [if_neg (by
        intro hc
        exact Nat.not_lt_zero _ hc.1)]
      rw [hcondeq]
      cases hr : residentOf m pid with
      | nil => simp
      | cons x t =>
        cases t with
        | nil =>
          have hx : x ≠ page := by
            intro hx
            rw [hr, hx] at hmem
            simp at hmem
          simp only [List.length_cons, List.length_nil]
          rw [if_pos (by omega)]
          rw [select_victim_singleton]
          simp [List.erase_cons, hx]
        | cons y t2 => rw [hr] at h; simp at h
    · simp only [true_iff]
      intro he
      rw [he] at hmem
      simp at hmem

/-- Counterexample to claim C7 as stated: the victim scan breaks ties
by the set's iteration order, and CPython iterates sets in hash-table
slot order, not insertion order.  The resident set built by inserting
pages 30, 31, 32, 33, 100 in that order (30–33 seeded by
`allocate_initial_pages` with no accesses, page 100 then accessed once
at time 1 with headroom) is iterated by CPython's small-int hash table
as 32, 33, 100, 30, 31 (slot index = value mod table size, scanned
upward), so on the next forced eviction the source's scan picks 32 —
while tie-break by insertion order, the same scan on the
insertion-ordered sequence, picks 30. -/
theorem c7_counterexample :
    MemoryManager.select_victim_page [32, 33, 100, 30, 31] [(100, 1)]
        = some 32 ∧
    MemoryManager.select_victim_page [30, 31, 32, 33, 100] [(100, 1)]
        = some 30 ∧
    (32 : Nat) ≠ 30 := by
  decide

/-- Claim C7 (amended): on a miss without headroom with a non-empty
resident set, `access_page` evicts exactly the page picked by
`_select_victim_page`; and that scan, as a function of the sequence in
which the resident set is iterated, returns the page with the smallest
last-access logical time (never-accessed pages counting as time 0),
breaking ties in favour of the page iterated first — every page
iterated before the victim has a strictly larger last-access time.
Since CPython's set iteration order is hash-based and implementation
defined, ties are broken by that iteration order, not by insertion
order (see `c7_counterexample`). -/
theorem c7_lru_victim :
    (∀ (iter : List Nat) (hist : List (Nat × Nat)), iter ≠ [] →
      ∃ v l1 l2,
        MemoryManager.select_victim_page iter hist = some v ∧
        iter = l1 ++ v :: l2 ∧
        (∀ q ∈ l1, lastAcc hist v < lastAcc hist q) ∧
        (∀ q ∈ iter, lastAcc hist v ≤ lastAcc hist q)) ∧
    (∀ (m : MemoryManager) (pid page limit : Nat),
      residentOf m pid ≠ [] →
      page ∉ residentOf m pid →
      ¬ ((residentOf m pid).length < limit ∧
        (allPages m.allocated_pages).length < m.total_memory_pages) →
      ∃ v,
        MemoryManager.select_victim_page (residentOf m pid) (histOf m pid)
            = some v ∧
        residentOf (m.access_page pid page limit).2 pid
            = ((residentOf m pid).erase v) ++ [page]) := by
  constructor
  · intro iter hist h
    exact select_victim_spec iter hist h
  · intro m pid page limit h1 h2 h3
    obtain ⟨v, l1, l2, hsel, _, _, _⟩ :=
      select_victim_spec (residentOf m pid) (histOf m pid) h1
    refine ⟨v, hsel, ?_⟩
    have hres : (alGet (ensureKey m.allocated_pages pid []) pid).getD
        ([] : List Nat) = residentOf m pid := by
      rw [alGet_ensureKey_getD]; rfl
    have hhist : (alGet (ensureKey m.access_history pid []) pid).getD
        ([] : List (Nat × Nat)) = histOf m pid := by
      rw [alGet_ensureKey_getD]; rfl
    simp only [MemoryManager.access_page]
    rw [if_neg (by rw [hres]; exact h2)]
    rw [if_neg (by rw [hres, allPages_ensureKey_empty]; exact h3)]
    rw [if_pos (by rw [hres]; exact List.length_pos.2 h1)]
    rw [hres, hhist, hsel]
    simp only [residentOf]
    rw [alGet_alSet_self]
    rfl

/-- Witness for C7 (amended): the victim contract instantiated at the
hash-order iteration sequence `[32, 33, 100, 30, 31]` of the
counterexample (the minimum is 32, iterated first among the time-0
ties), and the eviction equation on `exMemC7` (full 2-frame memory,
process 0 misses on page 9 with limit 2). -/
theorem c7_lru_victim_witness :
    (∃ v l1 l2,
      MemoryManager.select_victim_page [32, 33, 100, 30, 31] [(100, 1)]
          = some v ∧
      ([32, 33, 100, 30, 31] : List Nat) = l1 ++ v :: l2 ∧
      (∀ q ∈ l1, lastAcc [(100, 1)] v < lastAcc [(100, 1)] q) ∧
      (∀ q ∈ ([32, 33, 100, 30, 31] : List Nat),
        lastAcc [(100, 1)] v ≤ lastAcc [(100, 1)] q)) ∧
    (∃ v,
      MemoryManager.select_victim_page (residentOf exMemC7 0)
          (histOf exMemC7 0) = some v ∧
      residentOf (exMemC7.access_page 0 9 2).2 0
          = ((residentOf exMemC7 0).erase v) ++ [9]) :=
  ⟨c7_lru_victim.1 [32, 33, 100, 30, 31] [(100, 1)] (by decide),
   c7_lru_victim.2 exMemC7 0 9 2 (by decide) (by decide) (by decide)⟩

/-!
# Preservation lemmas for the memory-state invariant (claim C1)
-/

theorem access_resident_other (m : MemoryManager) (pid page limit q : Nat)
    (hq : q ≠ pid) :
    residentOf (m.access_page pid page limit).2 q = residentOf m q := by
  simp only [MemoryManager.access_page, residentOf]
  split
  · simp only
    rw [alGet_ensureKey_ne _ _ _ _ hq]
  · simp only
    rw [alGet_alSet_ne _ _ _ _ hq, alGet_ensureKey_ne _ _ _ _ hq]

theorem access_hit_resident (m : MemoryManager) (pid page limit : Nat)
    (hmem : page ∈ residentOf m pid) :
    residentOf (m.access_page pid page limit).2 pid = residentOf m pid := by
  have hcond : page ∈ (alGet (ensureKey m.allocated_pages pid []) pid).getD
      ([] : List Nat) := by
    rw [alGet_ensureKey_getD]
    exact hmem
  simp only [MemoryManager.access_page, residentOf]
  rw [if_pos hcond]
  simp only
  rw [alGet_ensureKey_getD]

theorem access_miss_resident (m : MemoryManager) (pid page limit : Nat)
    (hmem : page ∉ residentOf m pid) :
    residentOf (m.access_page pid page limit).2 pid =
      if (residentOf m pid).length < limit ∧
          (allPages m.allocated_pages).length < m.total_memory_pages then
        residentOf m pid ++ [page]
      else if 0 < (residentOf m pid).length then
        match MemoryManager.select_victim_page (residentOf m pid)
            (histOf m pid) with
        | some victim => ((residentOf m pid).erase victim) ++ [page]
        | none => residentOf m pid ++ [page]
      else
        residentOf m pid ++ [page] := by
  have hres : (alGet (ensureKey m.allocated_pages pid []) pid).getD
      ([] : List Nat) = residentOf m pid := by
    rw [alGet_ensureKey_getD]; rfl
  have hhist : (alGet (ensureKey m.access_history pid []) pid).getD
      ([] : List (Nat × Nat)) = histOf m pid := by
    rw [alGet_ensureKey_getD]; rfl
  simp only [MemoryManager.access_page]
  rw [if_neg (by rw [hres]; exact hmem)]
  simp only [residentOf]
  rw [alGet_alSet_self]
  rw [hres, hhist, allPages_ensureKey_empty]
  rfl

theorem access_total (m : MemoryManager) (pid page limit : Nat) :
    (m.access_page pid page limit).2.total_memory_pages
      = m.total_memory_pages := by
  simp only [MemoryManager.access_page]
  split
  · rfl
  · rfl

theorem access_resident_self (m : MemoryManager) (pid page limit : Nat)
    (hnd : (residentOf m pid).Nodup)
    (hlen : (residentOf m pid).length ≤ m.total_memory_pages)
    (hn : 1 ≤ m.total_memory_pages) :
    (residentOf (m.access_page pid page limit).2 pid).Nodup ∧
    (residentOf (m.access_page pid page limit).2 pid).length
      ≤ m.total_memory_pages := by
  by_cases hmem : page ∈ residentOf m pid
  · rw [access_hit_resident m pid page limit hmem]
    exact ⟨hnd, hlen⟩
  · rw [access_miss_resident m pid page limit hmem]
    split
    · rename_i hca
      have hsub := residentOf_subset_allPages m pid
      have hle := nodup_subset_length _ _ hnd hsub
      constructor
      · exact nodup_append_single _ _ hnd hmem
      · simp only [List.length_append, List.length_singleton]
        omega
    · split
      · rename_i hpos
        have hne : residentOf m pid ≠ [] := by
          intro he
          rw [he] at hpos
          simp at hpos
        obtain ⟨v, l1, l2, hsel, _, _, _⟩ :=
          select_victim_spec (residentOf m pid) (histOf m pid) hne
        rw [hsel]
        have hv : v ∈ residentOf m pid :=
          select_victim_mem _ _ v hsel
        have hnotin : page ∉ (residentOf m pid).erase v := by
          intro hc
          exact hmem (List.erase_subset _ _ hc)
        constructor
        · exact nodup_append_single _ _ (hnd.erase v) hnotin
        · have herase := List.length_erase_of_mem hv
          simp only [List.length_append, List.length_singleton]
          omega
      · rename_i hpos
        have he : residentOf m pid = [] := by
          cases hr : residentOf m pid with
          | nil => rfl
          | cons x t =>
            rw [hr] at hpos
            simp at hpos
        rw [he]
        constructor
        · simp
        · simpa using hn

theorem alloc_resident_other (m : MemoryManager) (pid k q : Nat)
    (hq : q ≠ pid) :
    residentOf (m.allocate_initial_pages pid k).2 q = residentOf m q := by
  simp only [MemoryManager.allocate_initial_pages, residentOf]
  split
  · rfl
  · simp only
    rw [alGet_alSet_ne _ _ _ _ hq, alGet_ensureKey_ne _ _ _ _ hq]

theorem alloc_total (m : MemoryManager) (pid k : Nat) :
    (m.allocate_initial_pages pid k).2.total_memory_pages
      = m.total_memory_pages := by
  simp only [MemoryManager.allocate_initial_pages]
  split
  · rfl
  · rfl

theorem alloc_resident_self (m : MemoryManager) (pid k : Nat)
    (hnd : (residentOf m pid).Nodup)
    (hlen : (residentOf m pid).length ≤ m.total_memory_pages) :
    (residentOf (m.allocate_initial_pages pid k).2 pid).Nodup ∧
    (residentOf (m.allocate_initial_pages pid k).2 pid).length
      ≤ m.total_memory_pages := by
  simp only [MemoryManager.allocate_initial_pages]
  split
  · exact ⟨hnd, hlen⟩
  · rename_i hg
    have hres : (alGet (ensureKey m.allocated_pages pid []) pid).getD
        ([] : List Nat) = residentOf m pid := by
      rw [alGet_ensureKey_getD]; rfl
    simp only [residentOf]
    rw [alGet_alSet_self]
    simp only [Option.getD_some]
    rw [hres]
    simp only [allPages_ensureKey_empty]
    rw [show ∀ (start : Nat),
        (List.range k).foldl (fun l i => setAdd l (start + i))
            (residentOf m pid) =
          ((List.range k).map (fun i => start + i)).foldl setAdd
            (residentOf m pid)
      from fun start => (List.foldl_map _ _ _ _).symm]
    constructor
    · exact foldl_setAdd_nodup _ _ hnd
    · have h1 := foldl_setAdd_length
        ((List.range k).map (fun i =>
          (allPages m.allocated_pages).length + i))
        (residentOf m pid)
      have hsub := residentOf_subset_allPages m pid
      have hle := nodup_subset_length _ _ hnd hsub
      simp only [List.length_map, List.length_range] at h1
      omega

theorem alGet_filter_ne {α : Type} (l : List (Nat × α)) (pid q : Nat)
    (hq : q ≠ pid) :
    alGet (l.filter (fun e => e.1 ≠ pid)) q = alGet l q := by
  induction l with
  | nil => rfl
  | cons e rest ih =>
    simp only [List.filter_cons]
    by_cases he : e.1 = pid
    · rw [if_neg (by simp [he])]
      rw [ih]
      have h1 : ¬ e.1 = q := by omega
      simp only [alGet]
      rw [if_neg h1]
    · rw [if_pos (by simp [he])]
      simp only [alGet]
      rw [ih]

theorem alGet_filter_self {α : Type} (l : List (Nat × α)) (pid : Nat) :
    alGet (l.filter (fun e => e.1 ≠ pid)) pid = none := by
  induction l with
  | nil => rfl
  | cons e rest ih =>
    simp only [List.filter_cons]
    by_cases he : e.1 = pid
    · rw [if_neg (by simp [he])]
      exact ih
    · rw [if_pos (by simp [he])]
      simp only [alGet]
      rw [if_neg he]
      exact ih

theorem dealloc_resident_other (m : MemoryManager) (pid q : Nat)
    (hq : q ≠ pid) :
    residentOf (m.deallocate_process_pages pid) q = residentOf m q := by
  simp only [MemoryManager.deallocate_process_pages, residentOf]
  rw [alGet_filter_ne _ _ _ hq]

theorem dealloc_resident_self (m : MemoryManager) (pid : Nat) :
    residentOf (m.deallocate_process_pages pid) pid = [] := by
  simp only [MemoryManager.deallocate_process_pages, residentOf]
  rw [alGet_filter_self]
  rfl

theorem dealloc_total (m : MemoryManager) (pid : Nat) :
    (m.deallocate_process_pages pid).total_memory_pages
      = m.total_memory_pages := rfl

theorem foldl_memops_inv (n : Nat) (hn : 1 ≤ n) :
    ∀ (ops : List MemOp) (m : MemoryManager),
      m.total_memory_pages = n →
      (∀ pid, (residentOf m pid).Nodup ∧ (residentOf m pid).length ≤ n) →
      (ops.foldl applyMemOp m).total_memory_pages = n ∧
      ∀ pid, (residentOf (ops.foldl applyMemOp m) pid).Nodup ∧
        (residentOf (ops.foldl applyMemOp m) pid).length ≤ n := by
  intro ops
  induction ops with
  | nil => intro m h1 h2; exact ⟨h1, h2⟩
  | cons op rest ih =>
    intro m h1 h2
    simp only [List.foldl_cons]
    apply ih
    · cases op with
      | alloc p0 k => rw [applyMemOp, alloc_total, h1]
      | access p0 page limit => rw [applyMemOp, access_total, h1]
      | dealloc p0 => rw [applyMemOp, dealloc_total, h1]
    · intro pid
      cases op with
      | alloc p0 k =>
        by_cases hp : pid = p0
        · subst hp
          rw [applyMemOp]
          have h3 := alloc_resident_self m pid k (h2 pid).1
            (h1 ▸ (h2 pid).2)
          rw [h1] at h3
          exact h3
        · rw [applyMemOp, alloc_resident_other m p0 k pid hp]
          exact h2 pid
      | access p0 page limit =>
        by_cases hp : pid = p0
        · subst hp
          rw [applyMemOp]
          have h3 := access_resident_self m pid page limit (h2 pid).1
            (h1 ▸ (h2 pid).2) (h1 ▸ hn)
          rw [h1] at h3
          exact h3
        · rw [applyMemOp, access_resident_other m p0 page limit pid hp]
          exact h2 pid
      | dealloc p0 =>
        by_cases hp : pid = p0
        · subst hp
          rw [applyMemOp, dealloc_resident_self]
          exact ⟨List.nodup_nil, by simp⟩
        · rw [applyMemOp, dealloc_resident_other m p0 pid hp]
          exact h2 pid

/-- Counterexample to claim C1 as stated: with a single physical frame
(`frameLimit = 1`), allocate one initial page to process 0, then let
process 1 (holding nothing) access a page: the system is full, so no
allocation headroom exists, but process 1 has no page of its own to
evict, and `access_page` inserts the page anyway — the total resident
count reaches 2 > 1. -/
theorem c1_conservation_counterexample :
    (runMemOps 1 [MemOp.alloc 0 1, MemOp.access 1 5 1]).total_memory_pages
      < totalResident (runMemOps 1 [MemOp.alloc 0 1, MemOp.access 1 5 1]) := by
  decide

/-- Claim C1 (amended): global conservation fails (see the
counterexample), but each individual process's resident set is bounded
by the frame limit at every state reachable by engine operations, for
any frame limit ≥ 1; hence the total resident count is bounded by
`frameLimit` times the number of processes rather than by `frameLimit`. -/
theorem c1_per_process_bound (n : Nat) (ops : List MemOp) (pid : Nat)
    (hn : 1 ≤ n) :
    (residentOf (runMemOps n ops) pid).length ≤ n := by
  have h := foldl_memops_inv n hn ops (MemoryManager.init n) rfl
    (by
      intro p
      simp [residentOf, MemoryManager.init, alGet])
  exact (h.2 pid).2

/-- Witness for C1 (amended): on the counterexample trace itself, each
process's resident set has size at most the frame limit 1. -/
theorem c1_per_process_bound_witness :
    (residentOf (runMemOps 1 [MemOp.alloc 0 1, MemOp.access 1 5 1]) 1).length
      ≤ 1 :=
  c1_per_process_bound 1 [MemOp.alloc 0 1, MemOp.access 1 5 1] 1 (by decide)

/-!
# Lemmas about the scheduler
-/

theorem scanReady_ready (ps : List PCB) :
    ∀ (attempts idx j : Nat), scanReady ps idx attempts = some j →
      ∃ p, ps.get? j = some p ∧ p.state = ProcessState.READY := by
  intro attempts
  induction attempts with
  | zero => intro idx j h; simp [scanReady] at h
  | succ k ih =>
    intro idx j h
    unfold scanReady at h
    cases hg : ps.get? idx with
    | none => rw [hg] at h; simp at h
    | some p =>
      rw [hg] at h
      simp only at h
      split at h
      · rename_i hs
        injection h with h2
        subst h2
        exact ⟨p, hg, hs⟩
      · exact ih _ j h

theorem schedule_next_ready (s : IntegratedScheduler) (idx : Nat)
    (h : s.schedule_next_process = some idx) :
    ∃ p, s.processes.get? idx = some p ∧ p.state = ProcessState.READY :=
  scanReady_ready s.processes s.processes.length s.current_process_index idx h

theorem execute_instructions_fields :
    ∀ (n : Nat) (p : PCB) (m : MemoryManager),
      (execute_instructions p m n).1.pid = p.pid ∧
      (execute_instructions p m n).1.required_time = p.required_time ∧
      (execute_instructions p m n).1.executed_time = p.executed_time ∧
      (execute_instructions p m n).1.state = p.state := by
  intro n
  induction n with
  | zero => intro p m; exact ⟨rfl, rfl, rfl, rfl⟩
  | succ k ih =>
    intro p m
    simp only [execute_instructions]
    split
    · exact ⟨rfl, rfl, rfl, rfl⟩
    · exact ⟨(ih _ _).1, (ih _ _).2.1, (ih _ _).2.2.1, (ih _ _).2.2.2⟩

theorem run_quantum_units_fields :
    ∀ (u ipt : Nat) (m : MemoryManager) (p : PCB),
      (run_quantum_units ipt m p u).2.pid = p.pid ∧
      (run_quantum_units ipt m p u).2.required_time = p.required_time ∧
      (run_quantum_units ipt m p u).2.state = p.state ∧
      p.executed_time ≤ (run_quantum_units ipt m p u).2.executed_time := by
  intro u
  induction u with
  | zero => intro ipt m p; exact ⟨rfl, rfl, rfl, Nat.le_refl _⟩
  | succ k ih =>
    intro ipt m p
    have hf := execute_instructions_fields ipt p m
    simp only [run_quantum_units]
    split
    · refine ⟨hf.1, hf.2.1, hf.2.2.2, ?_⟩
      have h3 := hf.2.2.1
      simp only [PCB.mk.injEq]
      omega
    · have hr := ih ipt (execute_instructions p m ipt).2
        { (execute_instructions p m ipt).1 with
          executed_time := (execute_instructions p m ipt).1.executed_time + 1 }
      refine ⟨hr.1.trans hf.1, hr.2.1.trans hf.2.1, hr.2.2.1.trans hf.2.2.2, ?_⟩
      have h3 := hf.2.2.1
      have h4 := hr.2.2.2
      simp only at h4
      omega

theorem run_quantum_units_executed_lt :
    ∀ (u ipt : Nat) (m : MemoryManager) (p : PCB), 1 ≤ u →
      p.executed_time < (run_quantum_units ipt m p u).2.executed_time := by
  intro u
  cases u with
  | zero => intro ipt m p h; omega
  | succ k =>
    intro ipt m p _
    have hf := execute_instructions_fields ipt p m
    simp only [run_quantum_units]
    split
    · have h3 := hf.2.2.1
      simp only
      omega
    · have hr := run_quantum_units_fields k ipt (execute_instructions p m ipt).2
        { (execute_instructions p m ipt).1 with
          executed_time := (execute_instructions p m ipt).1.executed_time + 1 }
      have h3 := hf.2.2.1
      have h4 := hr.2.2.2
      simp only at h4
      omega

theorem slice_none_eq (s : IntegratedScheduler)
    (h : s.schedule_next_process = none) : s.run_time_slice = (none, s) := by
  simp only [IntegratedScheduler.run_time_slice, h]

theorem run_time_slice_shape (s : IntegratedScheduler) (idx : Nat) (p : PCB)
    (hsched : s.schedule_next_process = some idx)
    (hget : s.processes.get? idx = some p) :
    ∃ pf, (s.run_time_slice).1 = some idx ∧
      (s.run_time_slice).2.processes = s.processes.set idx pf ∧
      pf.pid = p.pid ∧
      pf.required_time = p.required_time ∧
      p.executed_time ≤ pf.executed_time ∧
      (1 ≤ s.time_quantum → p.executed_time < pf.executed_time) ∧
      (pf.state = ProcessState.READY ∨ pf.state = ProcessState.TERMINATED) ∧
      (pf.state = ProcessState.READY →
        pf.executed_time < pf.required_time) ∧
      (s.run_time_slice).2.time_quantum = s.time_quantum := by
  have hq1 := run_quantum_units_fields s.time_quantum
    s.instructions_per_time_unit s.memory_manager
    { p with state := ProcessState.RUNNING }
  have hq2 := fun hq => run_quantum_units_executed_lt s.time_quantum
    s.instructions_per_time_unit s.memory_manager
    { p with state := ProcessState.RUNNING } hq
  simp only [IntegratedScheduler.run_time_slice, hsched, hget]
  split
  · rename_i hdone
    refine ⟨_, rfl, rfl, hq1.1, hq1.2.1, hq1.2.2.2, hq2, Or.inr rfl,
      fun h => ProcessState.noConfusion h, rfl⟩
  · rename_i hdone
    push_neg at hdone
    refine ⟨_, rfl, rfl, hq1.1, hq1.2.1, hq1.2.2.2, hq2, Or.inl rfl,
      fun _ => ?_, rfl⟩
    exact hdone.2

theorem get?_set_self :
    ∀ (l : List PCB) (i : Nat) (x p : PCB), l.get? i = some p →
      (l.set i x).get? i = some x := by
  intro l
  induction l with
  | nil => intro i x p h; simp at h
  | cons e rest ih =>
    intro i x p h
    cases i with
    | zero => rfl
    | succ j =>
      simp only [List.get?] at h
      simp only [List.set, List.get?]
      exact ih j x p h

theorem sum_map_set (f : PCB → Nat) :
    ∀ (l : List PCB) (i : Nat) (x p : PCB), l.get? i = some p →
      ((l.set i x).map f).sum + f p = (l.map f).sum + f x := by
  intro l
  induction l with
  | nil => intro i x p h; simp at h
  | cons e rest ih =>
    intro i x p h
    cases i with
    | zero =>
      simp only [List.get?, Option.some_inj] at h
      subst h
      simp only [List.set, List.map_cons, List.sum_cons]
      omega
    | succ j =>
      simp only [List.get?] at h
      simp only [List.set, List.map_cons, List.sum_cons]
      have h2 := ih j x p h
      omega

theorem map_set_same (f : PCB → Nat) :
    ∀ (l : List PCB) (i : Nat) (x p : PCB), l.get? i = some p →
      f x = f p → (l.set i x).map f = l.map f := by
  intro l
  induction l with
  | nil => intro i x p h _; simp at h
  | cons e rest ih =>
    intro i x p h hf
    cases i with
    | zero =>
      simp only [List.get?, Option.some_inj] at h
      subst h
      simp only [List.set, List.map_cons, hf]
    | succ j =>
      simp only [List.get?] at h
      simp only [List.set, List.map_cons]
      rw [ih j x p h hf]

theorem mem_le_sum_map (f : PCB → Nat) (l : List PCB) (p : PCB)
    (h : p ∈ l) : f p ≤ (l.map f).sum :=
  List.single_le_sum (fun _ _ => Nat.zero_le _) _ (List.mem_map_of_mem f h)

theorem slice_measure (s : IntegratedScheduler) (idx : Nat)
    (hsched : s.schedule_next_process = some idx) (hInv : InvS s)
    (hq : 1 ≤ s.time_quantum) :
    measureS (s.run_time_slice).2 < measureS s ∧
    InvS (s.run_time_slice).2 ∧
    (s.run_time_slice).2.time_quantum = s.time_quantum := by
  obtain ⟨p, hget, hready⟩ := schedule_next_ready s idx hsched
  obtain ⟨pf, h1, hproc, hpid, hreq, hle, hexec, hstate, hready2, htq⟩ :=
    run_time_slice_shape s idx p hsched hget
  have hmem := List.get?_mem hget
  have hlt : p.executed_time < p.required_time := (hInv p hmem).2 hready
  refine ⟨?_, ?_, htq⟩
  · unfold measureS
    rw [hproc]
    have hsum : ((s.processes.set idx pf).map
          (fun q => q.required_time - q.executed_time)).sum +
          (p.required_time - p.executed_time)
        = (s.processes.map
          (fun q => q.required_time - q.executed_time)).sum +
          (pf.required_time - pf.executed_time) :=
      sum_map_set (fun q => q.required_time - q.executed_time)
        s.processes idx pf p hget
    have hdec : pf.required_time - pf.executed_time
        < p.required_time - p.executed_time := by
      have := hexec hq
      omega
    omega
  · intro q hqmem
    rw [hproc] at hqmem
    rcases List.mem_or_eq_of_mem_set hqmem with hq2 | rfl
    · exact hInv q hq2
    · exact ⟨hstate, hready2⟩

theorem c9_termination_aux :
    ∀ (M : Nat) (s : IntegratedScheduler), measureS s ≤ M → InvS s →
      1 ≤ s.time_quantum →
      ∃ k, k ≤ measureS s ∧
        (sliceIter k s).schedule_next_process = none := by
  intro M
  induction M with
  | zero =>
    intro s hM hInv hq
    cases h : s.schedule_next_process with
    | none => exact ⟨0, Nat.zero_le _, h⟩
    | some idx =>
      obtain ⟨p, hget, hready⟩ := schedule_next_ready s idx h
      have hmem := List.get?_mem hget
      have hlt : p.executed_time < p.required_time := (hInv p hmem).2 hready
      have hge : p.required_time - p.executed_time ≤
          (s.processes.map
            (fun q => q.required_time - q.executed_time)).sum :=
        mem_le_sum_map (fun q => q.required_time - q.executed_time)
          s.processes p hmem
      unfold measureS at hM
      omega
  | succ M ih =>
    intro s hM hInv hq
    cases h : s.schedule_next_process with
    | none => exact ⟨0, Nat.zero_le _, h⟩
    | some idx =>
      obtain ⟨hdec, hInv2, htq⟩ := slice_measure s idx h hInv hq
      obtain ⟨k, hk, hnone⟩ := ih (s.run_time_slice).2 (by omega) hInv2
        (htq ▸ hq)
      refine ⟨k + 1, by omega, ?_⟩
      simpa only [sliceIter] using hnone

/-- Claim C9 (confirmed): from any between-slices state satisfying the
scheduler invariant (processes READY or TERMINATED, READY ones with
remaining time) and a positive time quantum, every `run_time_slice`
that selects a process strictly increases that process's
`executed_time`, and within at most `sum(required_time)` further
slices the scheduler reports no ready process. -/
theorem c9_progress_and_termination (s : IntegratedScheduler)
    (hInv : InvS s) (hq : 1 ≤ s.time_quantum) :
    (∀ idx p, s.schedule_next_process = some idx →
      s.processes.get? idx = some p →
      ∃ pf, (s.run_time_slice).2.processes.get? idx = some pf ∧
        p.executed_time < pf.executed_time) ∧
    (∃ k, k ≤ sumRequired s ∧
      (sliceIter k s).schedule_next_process = none) := by
  constructor
  · intro idx p hsched hget
    obtain ⟨pf, _, hproc, _, _, _, hexec, _, _, _⟩ :=
      run_time_slice_shape s idx p hsched hget
    refine ⟨pf, ?_, hexec hq⟩
    rw [hproc]
    exact get?_set_self s.processes idx pf p hget
  · obtain ⟨k, hk, hnone⟩ :=
      c9_termination_aux (measureS s) s (Nat.le_refl _) hInv hq
    refine ⟨k, le_trans hk ?_, hnone⟩
    unfold measureS sumRequired
    exact List.sum_le_sum (fun p _ => Nat.sub_le _ _)

/-- Witness for C9 on `exSched1` (one process, required time 1). -/
theorem c9_progress_and_termination_witness :
    (∀ idx p, exSched1.schedule_next_process = some idx →
      exSched1.processes.get? idx = some p →
      ∃ pf, (exSched1.run_time_slice).2.processes.get? idx = some pf ∧
        p.executed_time < pf.executed_time) ∧
    (∃ k, k ≤ sumRequired exSched1 ∧
      (sliceIter k exSched1).schedule_next_process = none) :=
  c9_progress_and_termination exSched1 (by decide) (by decide)

set_option maxRecDepth 100000 in
/-- Counterexample to claim C3 as stated: run the single admitted
process of `exSched1` to termination — the PCB transitions to
TERMINATED but remains in the scheduler's process list (the ring never
removes anything), so the queue does not contain exactly the
Ready/Running PCBs. -/
theorem c3_queue_counterexample :
    ((exSched1.run_time_slice).2.processes.map (fun p => p.state))
      = [ProcessState.TERMINATED] := by
  decide

/-- Claim C3 (amended): a `run_time_slice` never removes (or reorders)
any PCB — terminated PCBs stay in the circular list and only their
state marks them dead — and the scheduler scan only ever selects a
PCB in state READY, so the set of schedulable PCBs is exactly the
READY ones. -/
theorem c3_ring_retention (s : IntegratedScheduler) :
    ((s.run_time_slice).2.processes.map (fun p => p.pid)
        = s.processes.map (fun p => p.pid)) ∧
    (∀ idx, s.schedule_next_process = some idx →
      ∃ p, s.processes.get? idx = some p ∧
        p.state = ProcessState.READY) := by
  constructor
  · cases h : s.schedule_next_process with
    | none => rw [slice_none_eq s h]
    | some idx =>
      obtain ⟨p, hget, _⟩ := schedule_next_ready s idx h
      obtain ⟨pf, _, hproc, hpid, _, _, _, _, _, _⟩ :=
        run_time_slice_shape s idx p h hget
      rw [hproc]
      exact map_set_same (fun p => p.pid) s.processes idx pf p hget hpid
  · intro idx h
    exact schedule_next_ready s idx h

/-- Witness for C3 (amended) on `exSched1`. -/
theorem c3_ring_retention_witness :
    ((exSched1.run_time_slice).2.processes.map (fun p => p.pid)
        = exSched1.processes.map (fun p => p.pid)) ∧
    (∃ p, exSched1.processes.get? 0 = some p ∧
      p.state = ProcessState.READY) :=
  ⟨(c3_ring_retention exSched1).1,
   (c3_ring_retention exSched1).2 0 (by decide)⟩

set_option maxRecDepth 100000 in
/-- Claim C5 (code bug): `exSched2` admits its process with
`memory_limit = 2`, yet after a single time slice the process holds 4
resident pages, because `execute_instructions` passes the hard-coded
`process_memory_limit=8` to `access_page` instead of the admission-time
limit (which only shrinks the initial allocation to `min(2, 4) = 2`
pages). -/
theorem c5_budget_ignored :
    residentOf ((exSched2.run_time_slice).2.memory_manager) 0
        = [0, 1, 5, 10] ∧
    2 < (residentOf ((exSched2.run_time_slice).2.memory_manager) 0).length
      := by
  decide

/-- Counterexample to claim C8 as stated: admitting a process with the
non-positive `required_time = 0` is not rejected — the PCB is appended
to the process list (no validation exists in `add_process`). -/
theorem c8_no_validation_counterexample :
    ((IntegratedScheduler.init (MemoryManager.init 32)).add_process "A" 0 8
        (fun _ => 0)).processes.length = 1 := by
  decide

/-- Claim C8 (amended): `add_process` performs no admission-time
validation at all: for every `required_time` (including 0) it appends
exactly one new READY PCB with the next pid. -/
theorem c8_add_process_appends (s : IntegratedScheduler) (name : String)
    (required_time memory_limit : Nat) (g : Nat → Nat) :
    ∃ p, (s.add_process name required_time memory_limit g).processes
        = s.processes ++ [p] ∧
      p.required_time = required_time ∧
      p.state = ProcessState.READY ∧
      p.pid = s.processes.length :=
  ⟨_, rfl, rfl, rfl, rfl⟩

/-- Claim C10 (confirmed): `get_memory_statistics` clamps the raw sum
of per-process resident-set sizes to the capacity, so it always
reports `total_allocated ≤ total_capacity`, `utilization_rate ≤ 1`
and `free_pages ≥ 0` — and the reported `total_allocated` is exactly
`min(raw sum, capacity)`, understating actual residency whenever the
raw sum exceeds the capacity. -/
theorem c10_memory_statistics (s : IntegratedScheduler) :
    (s.get_memory_statistics).total_allocated
        ≤ (s.get_memory_statistics).total_capacity ∧
    (s.get_memory_statistics).utilization_rate ≤ 1 ∧
    0 ≤ (s.get_memory_statistics).free_pages ∧
    (s.get_memory_statistics).total_allocated
        = min (rawAllocated s) s.memory_manager.total_memory_pages := by
  refine ⟨?_, ?_, ?_, rfl⟩
  · simp only [IntegratedScheduler.get_memory_statistics]
    exact min_le_right _ _
  · simp only [IntegratedScheduler.get_memory_statistics]
    split
    · rename_i hpos
      rw [div_le_one (by exact_mod_cast hpos)]
      exact_mod_cast min_le_right _ _
    · norm_num
  · simp only [IntegratedScheduler.get_memory_statistics]
    exact le_max_left 0 _

/-- Witness for C4 (amended) at a fresh 4-frame memory: the first
zero-limit access leaves exactly the accessed page resident and is a
fault. -/
theorem c4_zero_limit_witness :
    residentOf ((MemoryManager.init 4).access_page 0 5 0).2 0 = [5] ∧
    (((MemoryManager.init 4).access_page 0 5 0).1 = true ↔
      residentOf (MemoryManager.init 4) 0 ≠ [5]) :=
  c4_zero_limit (MemoryManager.init 4) 0 5 (by decide)
